import Mathlib

/-!
Verification development for the documentation localization pipeline in
src/docs/messages.py: block tokenizer, catalog model with deduplication,
synchronizer, completion gate and regenerator. Pure parts are embedded
directly from the source; operations delegated to the external babel
library (catalog add/update) are modelled from the specification and
marked as such in their doc comments.
-/

namespace Docs

/-- A translatable block: its 1-based start line and its text (the
non-blank lines of the run, right-stripped and joined by newlines).
Mirrors the `token` list `[lineno, "", text, []]` yielded by
`extract_blocks` in src/docs/messages.py (the constant funcname and
comments slots are dropped). -/
structure Block where
  start : Nat
  text : String
deriving DecidableEq

/-- Whitespace as stripped by Python `str.strip` / `str.rstrip`. -/
def isWS (c : Char) : Bool :=
  c = ' ' ∨ c = '\t' ∨ c = '\n' ∨ c = '\r' ∨ c = '\x0b' ∨ c = '\x0c'

/-- Python `str.rstrip()`: remove trailing whitespace. -/
def rstrip (s : String) : String :=
  ⟨(s.data.reverse.dropWhile isWS).reverse⟩

/-- Python `str.strip()`: remove leading and trailing whitespace. -/
def strip (s : String) : String :=
  ⟨((s.data.dropWhile isWS).reverse.dropWhile isWS).reverse⟩

/-- A line is blank when stripping whitespace leaves nothing: the
`text.strip() != b""` test of `extract_blocks`. -/
def isBlank (s : String) : Bool :=
  strip s = ""

/-- Loop body of `extract_blocks` (src/docs/messages.py lines 46-67):
`lineno` is the 1-based number of the next line, `token` the pending
block start (Python `token[0]`, `none` when `token is None`), `msgs`
the accumulated right-stripped lines.  On a non-blank line the line is
appended (recording the current line number as start when the
accumulator was empty); on a blank line a block is emitted when the
accumulator is non-empty; at end of input a final pending block is
emitted. -/
def extractBlocksGo (lineno : Nat) (token : Option Nat) (msgs : List String) :
    List String → List Block
  | [] =>
    match token with
    | some s => if msgs = [] then [] else [⟨s, String.intercalate ("\n") msgs⟩]
    | none => []
  | line :: rest =>
    let start := match token with
      | none => lineno
      | some s => s
    let msgs0 := match token with
      | none => ([] : List String)
      | some _ => msgs
    if isBlank line then
      if msgs0 = [] then
        extractBlocksGo (lineno + 1) none [] rest
      else
        ⟨start, String.intercalate ("\n") msgs0⟩ :: extractBlocksGo (lineno + 1) none [] rest
    else
      extractBlocksGo (lineno + 1) (some start) (msgs0 ++ [rstrip line]) rest

/-- `extract_blocks` of src/docs/messages.py, over a document given as
its list of lines (newline terminators already removed; the Python
code iterates a byte-line file object and strips them via `rstrip`). -/
def extract_blocks (lines : List String) : List Block :=
  extractBlocksGo 1 none [] lines

/-- A translated value as stored in a catalog message: Python keeps a
plain `str` for singular messages and a `tuple` of strings for plural
forms (`m.string` in src/docs/messages.py). -/
inductive PyStr where
  | str (s : String)
  | tup (forms : List String)
deriving DecidableEq

/-- A catalog message: identity text `id` plus optional context (the
deduplication key), the translated value, the fuzzy flag, the ordered
`(relative file path, line)` locations and the automatic comments. -/
structure Message where
  id : String
  context : Option String
  string : PyStr
  fuzzy : Bool
  locations : List (String × Nat)
  auto_comments : List String
deriving DecidableEq

/-- An in-memory catalog: optional locale identifier and the messages
of babel's insertion-ordered `_messages` dict, as an ordered list with
pairwise-distinct `(id, context)` keys. -/
structure Catalog where
  locale : Option String
  entries : List Message
deriving DecidableEq

/-- Lookup in the `_messages` dict by identity key `(id, context)`:
the first (and, under the key-uniqueness invariant, only) message with
that key. -/
def findMsg (l : List Message) (i : String) (ctx : Option String) : Option Message :=
  l.find? fun m => decide (m.id = i ∧ m.context = ctx)

/-- Modelled from the spec: babel's `Catalog.add` (called by `extract`
in src/docs/messages.py, line 104, but implemented in the external
babel library, absent from src/). Per spec section 4.2: adding a
message that already exists by identity appends the new location to
the existing entry's `locations` rather than creating a duplicate
entry; a new identity is appended as an untranslated, non-fuzzy entry
holding just this location. -/
def addMessage (c : Catalog) (i : String) (loc : String × Nat) : Catalog :=
  if (findMsg c.entries i none).isSome then
    { c with entries := c.entries.map fun m =>
        if m.id = i ∧ m.context = none then
          { m with locations := m.locations ++ [loc] }
        else m }
  else
    { c with entries := c.entries ++ [⟨i, none, PyStr.str (""), false, [loc], []⟩] }

/-- A document tree: each file as (root-relative path, list of lines). -/
def DocTree := List (String × List String)

/-- Inner loop of `extract` (src/docs/messages.py lines 100-110): add
each of one file's blocks to the catalog under location
`(path, block start line)`. -/
def addBlocks (path : String) : Catalog → List Block → Catalog
  | c, [] => c
  | c, b :: rest => addBlocks path (addMessage c b.text (path, b.start)) rest

/-- Outer loop of `extract` (src/docs/messages.py lines 99-110): walk
the files in order, tokenizing each with `extract_blocks`. The
external `extract_from_file` driver is modelled, per spec section 4.2,
as applying the tokenizer to the file's lines. -/
def extractFiles : Catalog → DocTree → Catalog
  | c, [] => c
  | c, pr :: rest => extractFiles (addBlocks pr.1 c (extract_blocks pr.2)) rest

/-- `extract` of src/docs/messages.py (lines 96-110): fold the whole
document tree into a fresh template catalog. -/
def extract (tree : DocTree) : Catalog :=
  extractFiles ⟨none, []⟩ tree

/-- All (identity, location) additions performed by `extract`, in file
visitation order. -/
def treeAdds (tree : DocTree) : List (String × (String × Nat)) :=
  (tree.map fun pr => (extract_blocks pr.2).map fun b => (b.text, (pr.1, b.start))).flatten

/-- The occurrences of identity `i` among a list of additions, in
order: the (file, line) pairs added under identity `i`. -/
def occ (i : String) (adds : List (String × (String × Nat))) : List (String × Nat) :=
  adds.filterMap fun a => if a.1 = i then some a.2 else none

/-- An entry counts as carrying a translation when its value is
non-empty (a non-empty singular string, or a non-empty tuple). -/
def hasTranslation : PyStr → Bool
  | PyStr.str s => s ≠ ""
  | PyStr.tup fs => fs ≠ []

/-- Modelled from the spec: babel's `Catalog.update` (called as
`catalog.update(template)` in src/docs/messages.py, line 144, but
implemented in the external babel library, absent from src/). Per spec
section 4.3, per template entry identity `k`: if `k` exists in the
existing catalog with a non-fuzzy translation (identity text identical,
since lookup is by exact identity), carry over the existing translated
value with `fuzzy = false` while taking the template's locations and
auto comments; if `k` is absent, create a new entry with empty
translation, `fuzzy = false` and the template's locations; entries of
the existing catalog absent from the template are dropped. An existing
entry that is fuzzy or untranslated keeps its value and flag, under the
template's metadata (the spec fixes only the two cases above). -/
def mergeEntry (c : Catalog) (t : Message) : Message :=
  match findMsg c.entries t.id t.context with
  | some e =>
    if e.fuzzy = false ∧ hasTranslation e.string then
      { t with string := e.string, fuzzy := false }
    else
      { t with string := e.string, fuzzy := e.fuzzy }
  | none => { t with string := PyStr.str (""), fuzzy := false }

/-- The synchronized catalog: the merge rule applied to every template
entry, in template order; existing entries absent from the template do
not survive. (Doc comment of the modelling above applies to
`mergeEntry` and `Catalog.update` together.) -/
def Catalog.update (c : Catalog) (template : Catalog) : Catalog :=
  { c with entries := template.entries.map (mergeEntry c) }

/-- Python `Path(p).name`: the final component of a path — the
characters after the last `/`. -/
def pathName (p : String) : String :=
  ⟨(p.data.reverse.takeWhile fun c => c ≠ '/').reverse⟩

/-- The text chosen by `po2text` for a message (src/docs/messages.py
lines 79-82): `m.string`, replaced by the identity `m.id` when the
entry is fuzzy or the value strips to empty. `none` models the
`AttributeError` Python raises when a non-fuzzy plural tuple reaches
`msg.strip()` (the `or` short-circuits, so a fuzzy tuple is fine). -/
def blockText (m : Message) : Option String :=
  match m.string with
  | PyStr.str s => some (if m.fuzzy || strip s = "" then m.id else s)
  | PyStr.tup _ => if m.fuzzy then some m.id else none

/-- The `files` dict of `po2text`: destination file name mapped to the
accumulated `(line, text)` records, keys in insertion order. -/
abbrev Files := List (String × List (Nat × String))

/-- `files.setdefault(name, []); files[name].append(entry)`: append the
record under `name`, creating the key at the end on first use. -/
def addLoc (files : Files) (name : String) (entry : Nat × String) : Files :=
  if (files.find? fun kv => decide (kv.1 = name)).isSome then
    files.map fun kv => if kv.1 = name then (kv.1, kv.2 ++ [entry]) else kv
  else
    files ++ [(name, [entry])]

/-- Inner loop of `po2text` (src/docs/messages.py lines 75-82): over
one message's locations, record `(line, chosen text)` under each
location's file name; `none` when the text choice raises. -/
def locFold (m : Message) (fs : Files) : List (String × Nat) → Option Files
  | [] => some fs
  | loc :: rest =>
    match blockText m with
    | none => none
    | some msg => locFold m (addLoc fs (pathName loc.1) (loc.2, msg)) rest

/-- Outer loop of `po2text` (src/docs/messages.py lines 74-82): over
the catalog's messages in `_messages` order. -/
def entFold : List Message → Files → Option Files
  | [], fs => some fs
  | m :: rest, fs =>
    match locFold m fs m.locations with
    | none => none
    | some fs1 => entFold rest fs1

/-- The `files` dict built by the first loop of `po2text`, starting
empty. -/
def po2textFiles (c : Catalog) : Option Files :=
  entFold c.entries []

/-- Stable insertion of a record after all records of less-or-equal
line number. -/
def insertByLine (x : Nat × String) : List (Nat × String) → List (Nat × String)
  | [] => [x]
  | y :: ys => if y.1 ≤ x.1 then y :: insertByLine x ys else x :: y :: ys

/-- Python's stable `sorted(files[k], key=itemgetter(0))`
(src/docs/messages.py line 85): ascending by line number, records of
equal line kept in dict insertion order. -/
def sortByLine (l : List (Nat × String)) : List (Nat × String) :=
  l.foldl (fun acc x => insertByLine x acc) []

/-- Writing loop of `po2text` (src/docs/messages.py lines 90-92): each
record's text followed by two newlines. -/
def fileContent (records : List (Nat × String)) : String :=
  records.foldl (fun acc x => acc ++ x.2 ++ ("\n\n")) ("")

/-- `po2text` of src/docs/messages.py (lines 70-93) as the list of
(destination file name, written content) it produces, in `files` dict
key order; the destination path is the output directory joined with
the bare file name. `none` models the raising runs. -/
def po2text (c : Catalog) : Option (List (String × String)) :=
  (po2textFiles c).map fun files =>
    files.map fun kv => (kv.1, fileContent (sortByLine kv.2))

/-- `COMPLETION_CUTOFF` of src/docs/messages.py, line 23. Babel-free
numeric values are carried in ℚ. -/
def COMPLETION_CUTOFF : ℚ := 90 / 100

/-- Round-half-to-even of a rational to an integer, as Python's
`round` ties-to-even behaviour. -/
def roundHalfEven (q : ℚ) : ℤ :=
  let f := Int.floor q
  let r := q - f
  if r < 1 / 2 then f
  else if 1 / 2 < r then f + 1
  else if f % 2 = 0 then f else f + 1

/-- Python `round(q, 2)`: round to two decimal places, ties to even. -/
def round2 (q : ℚ) : ℚ :=
  (roundHalfEven (q * 100) : ℚ) / 100

/-- `pct = float(nb_translated / total_strings)` of src/docs/messages.py
line 189, as an exact fraction. -/
def completionPct (nb total : Nat) : ℚ :=
  (nb : ℚ) / (total : ℚ)

/-- The gate of src/docs/messages.py line 193: a locale is excluded
from regeneration exactly when `round(pct, 2) < COMPLETION_CUTOFF`. -/
def gateExcluded (nb total : Nat) : Bool :=
  round2 (completionPct nb total) < COMPLETION_CUTOFF

/-- The counting loop of `generate` (src/docs/messages.py lines
176-187): over the locale catalog's messages; each message's key is
looked up in the template's `_messages` with no guard (line 178), so a
missing key aborts the locale (`none`, the Python `KeyError`).
Otherwise the message counts unless it is fuzzy, or its value equals
the template's, or it is a singular string stripping to empty, or it
is a tuple with some form stripping to empty. -/
def countFold (template : Catalog) : List Message → Nat → Option Nat
  | [], n => some n
  | m :: rest, n =>
    match findMsg template.entries m.id m.context with
    | none => none
    | some tm =>
      countFold template rest
        (if m.fuzzy then n
         else if tm.string = m.string then n
         else if (match m.string with
                  | PyStr.str s => decide (strip s = "")
                  | PyStr.tup _ => false) then n
         else if (match m.string with
                  | PyStr.str _ => false
                  | PyStr.tup fs => fs.any fun x => decide (strip x = "")) then n
         else n + 1)

/-- `nb_translated` of `generate`: the counting loop run over the
locale catalog from zero. -/
def translatedCount (template locale : Catalog) : Option Nat :=
  countFold template locale.entries 0

/-- The predicate behind the count: not fuzzy, value differs from the
template's, and the translated string (every form, for a tuple) is
non-empty after stripping. -/
def validTranslated (template : Catalog) (m : Message) : Bool :=
  match findMsg template.entries m.id m.context with
  | none => false
  | some tm =>
    decide (m.fuzzy = false) && decide (tm.string ≠ m.string) &&
      (match m.string with
       | PyStr.str s => decide (strip s ≠ "")
       | PyStr.tup fs => fs.all fun x => decide (strip x ≠ ""))

/-- The per-locale loop of `update` (src/docs/messages.py lines
131-155): locales are processed in order; reading a locale's catalog
may fail (`Except.error`, an uncaught parse or I/O exception), in which
case the loop — having no handler — aborts, leaving the remaining
locales unprocessed. Returns the synchronized catalogs written before
the abort, and the first error if any. -/
def updateRun (template : Catalog) : List (Except String Catalog) → List Catalog × Option String
  | [] => ([], none)
  | Except.error e :: _ => ([], some e)
  | Except.ok cat :: rest =>
    let done := updateRun template rest
    (Catalog.update cat template :: done.1, done.2)

/-- The locale catalogs read before the first failing one. -/
def okBefore : List (Except String Catalog) → List Catalog
  | [] => []
  | Except.error _ :: _ => []
  | Except.ok cat :: rest => cat :: okBefore rest

/-- The error at which a run aborts: the first error of the list. -/
def firstErr : List (Except String Catalog) → Option String
  | [] => none
  | Except.error e :: _ => some e
  | Except.ok _ :: rest => firstErr rest

/-- The text the regenerator emits for an entry on the runs that
complete: the translation when the entry is non-fuzzy and its
translation is non-empty after stripping, otherwise the original
identity text. -/
def emitted (m : Message) : String :=
  match m.string with
  | PyStr.str s => if m.fuzzy = false ∧ strip s ≠ "" then s else m.id
  | PyStr.tup _ => m.id

/-- Read a destination file's accumulated records out of the `files`
dict. -/
def lookupGroup (fs : Files) (name : String) : Option (List (Nat × String)) :=
  (fs.find? fun kv => decide (kv.1 = name)).map Prod.snd

/-- Line `s` is the 1-based number of the first line of a maximal
non-blank run: the line exists and is non-blank, and it is either the
first line of the document or preceded by a blank line. This is where
`extract_blocks` records a block's start — the line appended when the
accumulator was previously empty. -/
def startOk (lines : List String) (s : Nat) : Prop :=
  (∃ l, lines[s - 1]? = some l ∧ isBlank l = false) ∧
    (s = 1 ∨ ∃ l, lines[s - 2]? = some l ∧ isBlank l = true)

/-- Replay of a sequence of (identity, location) additions. -/
def addAll : Catalog → List (String × (String × Nat)) → Catalog
  | c, [] => c
  | c, (i, loc) :: rest => addAll (addMessage c i loc) rest

/-- Fixture: the template extracted from the single file of spec
section 8's round-trip property, with blocks (1, a) and (3, b). -/
def rtTemplate : Catalog :=
  extract [(("f.md"), [("a"), (""), ("b")])]

/-- Fixture: a full, non-fuzzy, identity-preserving translation of
`rtTemplate`. -/
def rtLocale : Catalog :=
  { locale := some ("fr"),
    entries := rtTemplate.entries.map fun m =>
      { m with string := PyStr.str m.id, fuzzy := false } }

/-- Fixture: an untranslated template entry. -/
def tEntry (i : String) (k : Nat) : Message :=
  ⟨i, none, PyStr.str (""), false, [(("f.md"), k)], []⟩

/-- Fixture: a non-fuzzy locale entry with translation `tr`. -/
def lEntry (i tr : String) (k : Nat) : Message :=
  ⟨i, none, PyStr.str tr, false, [(("f.md"), k)], []⟩

/-- Fixture: a template of ten entries. -/
def T10 : Catalog :=
  ⟨none,
    [tEntry ("m1") 1, tEntry ("m2") 2, tEntry ("m3") 3, tEntry ("m4") 4,
     tEntry ("m5") 5, tEntry ("m6") 6, tEntry ("m7") 7, tEntry ("m8") 8,
     tEntry ("m9") 9, tEntry ("m10") 10]⟩

/-- Fixture: a locale catalog over `T10` with nine valid translations
and one still empty. -/
def L9 : Catalog :=
  ⟨some ("fr"),
    [lEntry ("m1") ("t1") 1, lEntry ("m2") ("t2") 2, lEntry ("m3") ("t3") 3,
     lEntry ("m4") ("t4") 4, lEntry ("m5") ("t5") 5, lEntry ("m6") ("t6") 6,
     lEntry ("m7") ("t7") 7, lEntry ("m8") ("t8") 8, lEntry ("m9") ("t9") 9,
     lEntry ("m10") ("") 10]⟩

/-- Fixture: a locale catalog holding an identity the template does
not know. -/
def Lbad : Catalog :=
  ⟨some ("xx"), [lEntry ("zz") ("t") 1]⟩

/-- Fixture: a one-entry template. -/
def Tw : Catalog :=
  ⟨none, [⟨("hello"), none, PyStr.str (""), false, [(("g.md"), 1)], []⟩]⟩

/-- Fixture: an existing locale catalog translating `Tw`'s entry,
with stale location metadata. -/
def Ew : Catalog :=
  ⟨some ("fr"),
    [⟨("hello"), none, PyStr.str ("bonjour"), false, [(("old.md"), 5)], [("note")]⟩]⟩

/-- Fixture: an existing locale catalog knowing nothing. -/
def Ew0 : Catalog :=
  ⟨some ("fr"), []⟩

/-- Fixture: a catalog whose two entries live in different directories
but files of the same name. -/
def Cdirs : Catalog :=
  ⟨some ("fr"),
    [⟨("x"), none, PyStr.str ("tx"), false, [(("d1/index.md"), 1)], []⟩,
     ⟨("y"), none, PyStr.str ("ty"), false, [(("d2/index.md"), 7)], []⟩]⟩

/-- Fixture: a catalog with one fuzzy entry, for the fallback. -/
def Cfuzzy : Catalog :=
  ⟨some ("fr"), [⟨("orig"), none, PyStr.str ("tr"), true, [(("a.md"), 2)], []⟩]⟩

/-- Fixture: two files both containing the same single block. -/
def dupTree : DocTree :=
  [(("f1.md"), [("dup")]), (("f2.md"), [("dup")])]

/-! ### Helper lemmas -/

/-- A found message satisfies the lookup key. -/
lemma findMsg_eq {l : List Message} {i : String} {ctx : Option String} {m : Message}
    (h : findMsg l i ctx = some m) : m ∈ l ∧ m.id = i ∧ m.context = ctx := by
  have h1 := List.mem_of_find?_eq_some h
  have h2 := List.find?_some h
  simp only [decide_eq_true_eq] at h2
  exact ⟨h1, h2⟩

/-- Merging when the existing catalog holds a non-fuzzy translation
for the key. -/
lemma mergeEntry_of_found {c : Catalog} {t e : Message}
    (he : findMsg c.entries t.id t.context = some e)
    (hf : e.fuzzy = false) (htr : hasTranslation e.string = true) :
    mergeEntry c t = { t with string := e.string, fuzzy := false } := by
  unfold mergeEntry
  rw [he]
  dsimp only
  rw [if_pos ⟨hf, htr⟩]

/-- Merging when the key is new to the existing catalog. -/
lemma mergeEntry_of_absent {c : Catalog} {t : Message}
    (he : findMsg c.entries t.id t.context = none) :
    mergeEntry c t = { t with string := PyStr.str (""), fuzzy := false } := by
  unfold mergeEntry
  rw [he]

/-- Merging never changes a message's identity key. -/
lemma mergeEntry_key (c : Catalog) (t : Message) :
    (mergeEntry c t).id = t.id ∧ (mergeEntry c t).context = t.context := by
  unfold mergeEntry
  split
  · split
    · exact ⟨rfl, rfl⟩
    · exact ⟨rfl, rfl⟩
  · exact ⟨rfl, rfl⟩

/-- Lookup commutes with a key-preserving map over the entries. -/
lemma findMsg_map {g : Message → Message}
    (hg : ∀ m, (g m).id = m.id ∧ (g m).context = m.context)
    (l : List Message) (i : String) (ctx : Option String) :
    findMsg (l.map g) i ctx = (findMsg l i ctx).map g := by
  induction l with
  | nil => rfl
  | cons a l ih =>
    unfold findMsg at ih ⊢
    rw [List.map_cons, List.find?_cons, List.find?_cons, (hg a).1, (hg a).2]
    cases hd : decide (a.id = i ∧ a.context = ctx)
    · dsimp only
      exact ih
    · dsimp only
      rfl

lemma startOk_first (pre rest : List String) (line : String)
    (hline : isBlank line = false)
    (hpre : pre = [] ∨ ∃ l, pre.getLast? = some l ∧ isBlank l = true) :
    startOk (pre ++ line :: rest) (pre.length + 1) := by
  constructor
  · refine ⟨line, ?_, hline⟩
    have h1 : pre.length + 1 - 1 = pre.length := by omega
    rw [h1, List.getElem?_append_right (Nat.le_refl _), Nat.sub_self]
    exact List.getElem?_cons_zero
  · rcases hpre with h | ⟨l, hl, hb⟩
    · left
      rw [h]
      rfl
    · right
      refine ⟨l, ?_, hb⟩
      have hne : pre ≠ [] := by
        intro h
        rw [h] at hl
        exact Option.noConfusion hl
      have hlen : 0 < pre.length := List.length_pos.mpr hne
      have h1 : pre.length + 1 - 2 = pre.length - 1 := by omega
      rw [h1, List.getElem?_append_left (by omega), ← List.getLast?_eq_getElem?]
      exact hl

lemma go_startOk :
    ∀ (rest pre : List String) (token : Option Nat) (msgs : List String),
      (∀ s, token = some s → msgs ≠ [] ∧ startOk (pre ++ rest) s) →
      (token = none → msgs = [] ∧
        (pre = [] ∨ ∃ l, pre.getLast? = some l ∧ isBlank l = true)) →
      ∀ b ∈ extractBlocksGo (pre.length + 1) token msgs rest,
        startOk (pre ++ rest) b.start := by
  intro rest
  induction rest with
  | nil =>
    intro pre token msgs htok _ b hb
    cases token with
    | none => exact absurd hb (List.not_mem_nil b)
    | some s =>
      unfold extractBlocksGo at hb
      dsimp only at hb
      by_cases hm : msgs = []
      · rw [if_pos hm] at hb
        exact absurd hb (List.not_mem_nil b)
      · rw [if_neg hm] at hb
        rcases List.mem_singleton.mp hb with rfl
        exact (htok s rfl).2
  | cons line rest ih =>
    intro pre token msgs htok hnone b hb
    have heq : pre ++ line :: rest = (pre ++ [line]) ++ rest := by
      rw [List.append_cons]
    have hlen : (pre ++ [line]).length = pre.length + 1 := by
      rw [List.length_append, List.length_singleton]
    cases token with
    | none =>
      obtain ⟨hm, hpre⟩ := hnone rfl
      unfold extractBlocksGo at hb
      dsimp only at hb
      by_cases hbl : isBlank line = true
      · rw [if_pos hbl, if_pos rfl] at hb
        rw [heq]
        refine ih (pre ++ [line]) none [] (fun s h => Option.noConfusion h)
          (fun _ => ⟨rfl, Or.inr ⟨line, ?_, hbl⟩⟩) b ?_
        · rw [List.getLast?_append]
          rfl
        · rw [hlen]
          exact hb
      · rw [if_neg hbl] at hb
        rw [heq]
        have hfirst : startOk ((pre ++ [line]) ++ rest) (pre.length + 1) := by
          rw [← heq]
          exact startOk_first pre rest line (Bool.not_eq_true _ ▸ hbl) hpre
        refine ih (pre ++ [line]) (some (pre.length + 1)) ([] ++ [rstrip line])
          (fun s h => ?_) (fun h => Option.noConfusion h) b ?_
        · rcases Option.some.injEq _ _ ▸ h with rfl
          exact ⟨by simp, hfirst⟩
        · rw [hlen]
          exact hb
    | some s0 =>
      obtain ⟨hm, hok⟩ := htok s0 rfl
      unfold extractBlocksGo at hb
      dsimp only at hb
      by_cases hbl : isBlank line = true
      · rw [if_pos hbl, if_neg hm] at hb
        rcases List.mem_cons.mp hb with rfl | hb2
        · exact hok
        · rw [heq]
          refine ih (pre ++ [line]) none [] (fun s h => Option.noConfusion h)
            (fun _ => ⟨rfl, Or.inr ⟨line, ?_, hbl⟩⟩) b ?_
          · rw [List.getLast?_append]
            rfl
          · rw [hlen]
            exact hb2
      · rw [if_neg hbl] at hb
        rw [heq]
        refine ih (pre ++ [line]) (some s0) (msgs ++ [rstrip line])
          (fun s h => ?_) (fun h => Option.noConfusion h) b ?_
        · rcases Option.some.injEq _ _ ▸ h with rfl
          refine ⟨by simp, ?_⟩
          rw [← heq]
          exact hok
        · rw [hlen]
          exact hb

lemma blocks_startOk (lines : List String) :
    ∀ b ∈ extract_blocks lines, startOk lines b.start := by
  have h := go_startOk lines [] none []
    (fun s h => Option.noConfusion h)
    (fun _ => ⟨rfl, Or.inl rfl⟩)
  simpa using h

lemma count_step (template : Catalog) (m tm : Message) (n : Nat)
    (htm : findMsg template.entries m.id m.context = some tm) :
    (if m.fuzzy then n
     else if tm.string = m.string then n
     else if (match m.string with
              | PyStr.str s => decide (strip s = "")
              | PyStr.tup _ => false) then n
     else if (match m.string with
              | PyStr.str _ => false
              | PyStr.tup fs => fs.any fun x => decide (strip x = "")) then n
     else n + 1)
    = n + (if validTranslated template m then 1 else 0) := by
  unfold validTranslated
  rw [htm]
  cases hfz : m.fuzzy with
  | true => simp [hfz]
  | false =>
    by_cases heq : tm.string = m.string
    · simp [heq]
    · cases hs : m.string with
      | str s =>
        rw [hs] at heq
        by_cases hss : strip s = "" <;> simp [heq, hss, hs]
      | tup fs =>
        rw [hs] at heq
        cases hany : fs.any fun x => decide (strip x = "") with
        | true =>
          obtain ⟨x, hx, hdx⟩ := List.any_eq_true.mp hany
          have hall : (fs.all fun x => decide (strip x ≠ "")) = false := by
            cases h : fs.all fun x => decide (strip x ≠ "") with
            | false => rfl
            | true =>
              have hx2 := List.all_eq_true.mp h x hx
              rw [decide_eq_true_eq] at hx2
              exact absurd (of_decide_eq_true hdx) hx2
          simp only [hfz, hs, hany, hall, Bool.false_eq_true, if_false]
          simp
        | false =>
          have hvx : ∀ x ∈ fs, decide (strip x ≠ "") = true := by
            intro x hx
            have := List.any_eq_false.mp hany x hx
            simpa using this
          have hall : (fs.all fun x => decide (strip x ≠ "")) = true :=
            List.all_eq_true.mpr hvx
          simp only [hfz, hs, hany, Bool.false_eq_true, if_false]
          have hvp : ∀ x ∈ fs, ¬strip x = "" := fun x hx => by simpa using hvx x hx
          simp [heq, hall, if_pos hvp]

lemma countFold_eq (template : Catalog) :
    ∀ (l : List Message) (n : Nat),
      (∀ m ∈ l, (findMsg template.entries m.id m.context).isSome = true) →
      countFold template l n = some (n + l.countP (validTranslated template)) := by
  intro l
  induction l with
  | nil => intro n _; simp [countFold]
  | cons m rest ih =>
    intro n hall
    obtain ⟨tm, htm⟩ := Option.isSome_iff_exists.mp (hall m (List.mem_cons_self m rest))
    unfold countFold
    rw [htm]
    dsimp only
    rw [ih _ fun m' hm' => hall m' (List.mem_cons_of_mem m hm')]
    rw [count_step template m tm n htm, List.countP_cons]
    congr 1
    omega

lemma countFold_none (template : Catalog) :
    ∀ (l : List Message) (n : Nat) (m : Message),
      m ∈ l → findMsg template.entries m.id m.context = none →
      countFold template l n = none := by
  intro l
  induction l with
  | nil => intro n m hm; exact absurd hm (List.not_mem_nil m)
  | cons m0 rest ih =>
    intro n m hm hnone
    rcases List.mem_cons.mp hm with rfl | hm2
    · unfold countFold
      rw [hnone]
    · unfold countFold
      cases h0 : findMsg template.entries m0.id m0.context with
      | none => rfl
      | some tm => exact ih _ m hm2 hnone

lemma lookupGroup_map (fs : Files) (n : String) (e : Nat × String) (q : String) :
    lookupGroup (fs.map fun kv => if kv.1 = n then (kv.1, kv.2 ++ [e]) else kv) q =
      if q = n then (lookupGroup fs n).map (fun g => g ++ [e]) else lookupGroup fs q := by
  induction fs with
  | nil =>
    by_cases hq : q = n <;> simp [lookupGroup, hq]
  | cons kv fs ih =>
    unfold lookupGroup at ih ⊢
    simp only [List.map_cons, List.find?_cons]
    have hfst : (if kv.1 = n then (kv.1, kv.2 ++ [e]) else kv).1 = kv.1 := by
      by_cases hk : kv.1 = n <;> simp [hk]
    rw [hfst]
    by_cases hkq : kv.1 = q
    · rw [decide_eq_true hkq]
      by_cases hq : q = n
      · have hkn : kv.1 = n := hq ▸ hkq
        rw [if_pos hq, decide_eq_true hkn, if_pos hkn]
        rfl
      · have hkn : ¬kv.1 = n := fun h => hq (hkq ▸ h)
        rw [if_neg hq, if_neg hkn]
    · rw [decide_eq_false hkq]
      by_cases hq : q = n
      · rw [if_pos hq] at ih ⊢
        have hkn : ¬kv.1 = n := fun h => hkq (hq ▸ h)
        rw [decide_eq_false hkn]
        exact ih
      · rw [if_neg hq] at ih ⊢
        exact ih

lemma lookupGroup_append_single (fs : Files) (n : String) (e : Nat × String) (q : String)
    (h : (fs.find? fun kv => decide (kv.1 = n)).isSome = false) :
    lookupGroup (fs ++ [(n, [e])]) q = if q = n then some [e] else lookupGroup fs q := by
  induction fs with
  | nil =>
    by_cases hq : q = n
    · simp [lookupGroup, hq]
    · have hnq : ¬n = q := fun h2 => hq h2.symm
      simp [lookupGroup, hq, hnq]
  | cons kv fs ih =>
    rw [List.find?_cons] at h
    have hkn : ¬kv.1 = n := by
      intro hk
      rw [decide_eq_true hk] at h
      exact Bool.noConfusion h
    rw [decide_eq_false hkn] at h
    dsimp only at h
    unfold lookupGroup at ih ⊢
    rw [List.cons_append, List.find?_cons, List.find?_cons]
    by_cases hkq : kv.1 = q
    · rw [decide_eq_true hkq, if_neg (fun hq2 => hkn (hkq.trans hq2))]
    · rw [decide_eq_false hkq]
      dsimp only
      exact ih h

lemma lookupGroup_isSome_of_find (fs : Files) (n : String)
    (h : (fs.find? fun kv => decide (kv.1 = n)).isSome = true) :
    ∃ g, lookupGroup fs n = some g := by
  obtain ⟨kv, hkv⟩ := Option.isSome_iff_exists.mp h
  exact ⟨kv.2, by unfold lookupGroup; rw [hkv]; rfl⟩

lemma lookupGroup_addLoc (fs : Files) (n : String) (e : Nat × String) (q : String) :
    lookupGroup (addLoc fs n e) q =
      if q = n then some (((lookupGroup fs n).getD []) ++ [e]) else lookupGroup fs q := by
  unfold addLoc
  cases hp : (fs.find? fun kv => decide (kv.1 = n)).isSome with
  | true =>
    rw [if_pos rfl, lookupGroup_map]
    obtain ⟨g, hg⟩ := lookupGroup_isSome_of_find fs n hp
    rw [hg]
    by_cases hq : q = n <;> simp [hq]
  | false =>
    rw [if_neg Bool.false_ne_true, lookupGroup_append_single fs n e q hp]
    have hf : (fs.find? fun kv => decide (kv.1 = n)) = none :=
      Option.not_isSome_iff_eq_none.mp (by rw [hp]; exact Bool.false_ne_true)
    have hn : lookupGroup fs n = none := by
      unfold lookupGroup
      rw [hf]
      rfl
    rw [hn]
    by_cases hq : q = n <;> simp [hq]

lemma memFile_addLoc_self (fs : Files) (n : String) (e : Nat × String) :
    ∃ g, lookupGroup (addLoc fs n e) n = some g ∧ e ∈ g := by
  rw [lookupGroup_addLoc, if_pos rfl]
  exact ⟨_, rfl, List.mem_append_right _ (List.mem_singleton_self e)⟩

lemma memFile_addLoc_mono (fs : Files) (n q : String) (e x : Nat × String)
    (h : ∃ g, lookupGroup fs q = some g ∧ x ∈ g) :
    ∃ g, lookupGroup (addLoc fs n e) q = some g ∧ x ∈ g := by
  rw [lookupGroup_addLoc]
  obtain ⟨g, hg, hx⟩ := h
  by_cases hq : q = n
  · subst hq
    rw [if_pos rfl, hg]
    exact ⟨g ++ [e], rfl, List.mem_append_left _ hx⟩
  · rw [if_neg hq]
    exact ⟨g, hg, hx⟩

lemma blockText_emitted {m : Message} {msg : String}
    (h : blockText m = some msg) : msg = emitted m := by
  unfold blockText at h
  unfold emitted
  cases hs : m.string with
  | str s =>
    rw [hs] at h
    dsimp only at h ⊢
    rw [Option.some.injEq] at h
    split at h
    · next hc =>
      have hnc : ¬(m.fuzzy = false ∧ strip s ≠ "") := by
        rcases Bool.or_eq_true _ _ ▸ hc with hf | hd
        · intro hand
          rw [hand.1] at hf
          exact Bool.noConfusion hf
        · intro hand
          exact hand.2 (of_decide_eq_true hd)
      rw [if_neg hnc]
      exact h.symm
    · next hc =>
      rw [Bool.or_eq_true] at hc
      push_neg at hc
      obtain ⟨hf, hd⟩ := hc
      have hcond : m.fuzzy = false ∧ strip s ≠ "" :=
        ⟨Bool.eq_false_iff.mpr hf, fun he => hd (decide_eq_true he)⟩
      rw [if_pos hcond]
      exact h.symm
  | tup fs =>
    rw [hs] at h
    dsimp only at h ⊢
    split at h
    · rw [Option.some.injEq] at h
      exact h.symm
    · exact Option.noConfusion h

lemma locFold_mono (m : Message) :
    ∀ (locs : List (String × Nat)) (fs fs' : Files) (q : String) (x : Nat × String),
      locFold m fs locs = some fs' →
      (∃ g, lookupGroup fs q = some g ∧ x ∈ g) →
      ∃ g, lookupGroup fs' q = some g ∧ x ∈ g := by
  intro locs
  induction locs with
  | nil =>
    intro fs fs' q x h hmem
    unfold locFold at h
    exact Option.some.inj h ▸ hmem
  | cons loc rest ih =>
    intro fs fs' q x h hmem
    unfold locFold at h
    cases hbt : blockText m with
    | none => rw [hbt] at h; exact Option.noConfusion h
    | some msg =>
      rw [hbt] at h
      dsimp only at h
      exact ih _ _ _ _ h (memFile_addLoc_mono _ _ _ _ _ hmem)

lemma locFold_mem (m : Message) :
    ∀ (locs : List (String × Nat)) (fs fs' : Files) (loc : String × Nat),
      locFold m fs locs = some fs' → loc ∈ locs →
      ∃ g, lookupGroup fs' (pathName loc.1) = some g ∧ (loc.2, emitted m) ∈ g := by
  intro locs
  induction locs with
  | nil =>
    intro fs fs' loc _ hmem
    exact absurd hmem (List.not_mem_nil loc)
  | cons l rest ih =>
    intro fs fs' loc h hmem
    unfold locFold at h
    cases hbt : blockText m with
    | none => rw [hbt] at h; exact Option.noConfusion h
    | some msg =>
      rw [hbt] at h
      dsimp only at h
      have hme := blockText_emitted hbt
      subst hme
      rcases List.mem_cons.mp hmem with rfl | hm2
      · exact locFold_mono m rest _ _ _ _ h
          (memFile_addLoc_self fs (pathName loc.1) (loc.2, emitted m))
      · exact ih _ _ _ h hm2

lemma entFold_mono :
    ∀ (ents : List Message) (fs fs' : Files) (q : String) (x : Nat × String),
      entFold ents fs = some fs' →
      (∃ g, lookupGroup fs q = some g ∧ x ∈ g) →
      ∃ g, lookupGroup fs' q = some g ∧ x ∈ g := by
  intro ents
  induction ents with
  | nil =>
    intro fs fs' q x h hmem
    unfold entFold at h
    exact Option.some.inj h ▸ hmem
  | cons m rest ih =>
    intro fs fs' q x h hmem
    unfold entFold at h
    cases h1 : locFold m fs m.locations with
    | none => rw [h1] at h; exact Option.noConfusion h
    | some mid =>
      rw [h1] at h
      dsimp only at h
      exact ih _ _ _ _ h (locFold_mono m _ _ _ _ _ h1 hmem)

lemma entFold_mem :
    ∀ (ents : List Message) (fs fs' : Files) (m : Message) (loc : String × Nat),
      entFold ents fs = some fs' → m ∈ ents → loc ∈ m.locations →
      ∃ g, lookupGroup fs' (pathName loc.1) = some g ∧ (loc.2, emitted m) ∈ g := by
  intro ents
  induction ents with
  | nil =>
    intro fs fs' m loc _ hm
    exact absurd hm (List.not_mem_nil m)
  | cons m0 rest ih =>
    intro fs fs' m loc h hm hloc
    unfold entFold at h
    cases h1 : locFold m0 fs m0.locations with
    | none => rw [h1] at h; exact Option.noConfusion h
    | some mid =>
      rw [h1] at h
      dsimp only at h
      rcases List.mem_cons.mp hm with rfl | hm2
      · exact entFold_mono rest _ _ _ _ h (locFold_mem m _ _ _ _ h1 hloc)
      · exact ih _ _ _ _ h hm2 hloc

lemma addLoc_keys_nodup (fs : Files) (n : String) (e : Nat × String)
    (h : (fs.map Prod.fst).Nodup) : ((addLoc fs n e).map Prod.fst).Nodup := by
  unfold addLoc
  cases hp : (fs.find? fun kv => decide (kv.1 = n)).isSome with
  | true =>
    rw [if_pos rfl]
    have hkeys : (fs.map fun kv => if kv.1 = n then (kv.1, kv.2 ++ [e]) else kv).map Prod.fst
        = fs.map Prod.fst := by
      rw [List.map_map]
      refine List.map_congr_left ?_
      intro kv _
      by_cases hk : kv.1 = n <;> simp [hk]
    rw [hkeys]
    exact h
  | false =>
    rw [if_neg Bool.false_ne_true, List.map_append]
    have hne : n ∉ fs.map Prod.fst := by
      intro hmem
      obtain ⟨kv, hkv, hfst⟩ := List.mem_map.mp hmem
      have hnone := List.find?_eq_none.mp
        (Option.not_isSome_iff_eq_none.mp (by rw [hp]; exact Bool.false_ne_true)) kv hkv
      exact hnone (decide_eq_true hfst)
    simp [List.nodup_append, h, hne]

lemma locFold_keys_nodup (m : Message) :
    ∀ (locs : List (String × Nat)) (fs fs' : Files),
      locFold m fs locs = some fs' → (fs.map Prod.fst).Nodup →
      (fs'.map Prod.fst).Nodup := by
  intro locs
  induction locs with
  | nil =>
    intro fs fs' h hnd
    unfold locFold at h
    exact Option.some.inj h ▸ hnd
  | cons loc rest ih =>
    intro fs fs' h hnd
    unfold locFold at h
    cases hbt : blockText m with
    | none => rw [hbt] at h; exact Option.noConfusion h
    | some msg =>
      rw [hbt] at h
      dsimp only at h
      exact ih _ _ h (addLoc_keys_nodup _ _ _ hnd)

lemma entFold_keys_nodup :
    ∀ (ents : List Message) (fs fs' : Files),
      entFold ents fs = some fs' → (fs.map Prod.fst).Nodup →
      (fs'.map Prod.fst).Nodup := by
  intro ents
  induction ents with
  | nil =>
    intro fs fs' h hnd
    unfold entFold at h
    exact Option.some.inj h ▸ hnd
  | cons m rest ih =>
    intro fs fs' h hnd
    unfold entFold at h
    cases h1 : locFold m fs m.locations with
    | none => rw [h1] at h; exact Option.noConfusion h
    | some mid =>
      rw [h1] at h
      dsimp only at h
      exact ih _ _ h (locFold_keys_nodup m _ _ _ h1 hnd)

lemma occ_append (i : String) (a b : List (String × (String × Nat))) :
    occ i (a ++ b) = occ i a ++ occ i b := by
  unfold occ
  rw [List.filterMap_append]

lemma occ_single (i j : String) (loc : String × Nat) :
    occ i [(j, loc)] = if j = i then [loc] else [] := by
  unfold occ
  by_cases h : j = i <;> simp [h]

lemma findMsg_none {l : List Message} {i : String} {ctx : Option String}
    (h : findMsg l i ctx = none) : ∀ m ∈ l, ¬(m.id = i ∧ m.context = ctx) := by
  intro m hm hand
  have hp := List.find?_eq_none.mp h m hm
  exact hp (decide_eq_true hand)

lemma addMessage_inv (c : Catalog) (done : List (String × (String × Nat)))
    (i : String) (loc : String × Nat)
    (h1 : ∀ m ∈ c.entries, m.context = none ∧ m.locations = occ m.id done)
    (h2 : ∀ j, occ j done ≠ [] → ∃ m ∈ c.entries, m.id = j)
    (h3 : (c.entries.map Message.id).Nodup) :
    (∀ m ∈ (addMessage c i loc).entries,
        m.context = none ∧ m.locations = occ m.id (done ++ [(i, loc)])) ∧
    (∀ j, occ j (done ++ [(i, loc)]) ≠ [] →
        ∃ m ∈ (addMessage c i loc).entries, m.id = j) ∧
    ((addMessage c i loc).entries.map Message.id).Nodup := by
  unfold addMessage
  cases hf : (findMsg c.entries i none).isSome with
  | true =>
    rw [if_pos rfl]
    obtain ⟨m0, hm0⟩ := Option.isSome_iff_exists.mp hf
    obtain ⟨hm0mem, hm0id, hm0ctx⟩ := findMsg_eq hm0
    have hid : ∀ m : Message, ((if m.id = i ∧ m.context = none then
        { m with locations := m.locations ++ [loc] } else m) : Message).id = m.id := by
      intro m
      by_cases hk : m.id = i ∧ m.context = none <;> simp [hk]
    refine ⟨?_, ?_, ?_⟩
    · intro m' hm'
      obtain ⟨m, hm, hup⟩ := List.mem_map.mp hm'
      obtain ⟨hctx, hlocs⟩ := h1 m hm
      by_cases hk : m.id = i ∧ m.context = none
      · rw [if_pos hk] at hup
        rw [← hup]
        refine ⟨hctx, ?_⟩
        rw [occ_append, occ_single]
        dsimp only
        rw [← hk.1, if_pos rfl, hlocs]
      · rw [if_neg hk] at hup
        rw [← hup]
        refine ⟨hctx, ?_⟩
        have hne : ¬i = m.id := by
          intro hh
          exact hk ⟨hh.symm, hctx⟩
        rw [occ_append, occ_single, if_neg hne, List.append_nil]
        exact hlocs
    · intro j hne
      rw [occ_append, occ_single] at hne
      by_cases hj : occ j done = []
      · have hij : i = j := by
          by_contra hij
          rw [hj, if_neg hij] at hne
          exact hne rfl
        refine ⟨_, List.mem_map_of_mem _ hm0mem, ?_⟩
        rw [hid m0, hm0id]
        exact hij
      · obtain ⟨m, hm, hmid⟩ := h2 j hj
        refine ⟨_, List.mem_map_of_mem _ hm, ?_⟩
        rw [hid m]
        exact hmid
    · have hkeys : ((c.entries.map fun m => if m.id = i ∧ m.context = none then
          { m with locations := m.locations ++ [loc] } else m).map Message.id)
          = c.entries.map Message.id := by
        rw [List.map_map]
        exact List.map_congr_left fun m _ => hid m
      rw [hkeys]
      exact h3
  | false =>
    rw [if_neg Bool.false_ne_true]
    have hnone : findMsg c.entries i none = none :=
      Option.not_isSome_iff_eq_none.mp (by rw [hf]; exact Bool.false_ne_true)
    have hno : ∀ m ∈ c.entries, m.id ≠ i := by
      intro m hm hh
      exact findMsg_none hnone m hm ⟨hh, (h1 m hm).1⟩
    have hocc : occ i done = [] := by
      by_contra hocc
      obtain ⟨m, hm, hmid⟩ := h2 i hocc
      exact hno m hm hmid
    refine ⟨?_, ?_, ?_⟩
    · intro m' hm'
      rcases List.mem_append.mp hm' with hm2 | hm2
      · obtain ⟨hctx, hlocs⟩ := h1 m' hm2
        refine ⟨hctx, ?_⟩
        have hne : ¬i = m'.id := fun hh => hno m' hm2 hh.symm
        rw [occ_append, occ_single, if_neg hne, List.append_nil]
        exact hlocs
      · rw [List.mem_singleton.mp hm2]
        refine ⟨rfl, ?_⟩
        dsimp only
        rw [occ_append, occ_single, if_pos rfl, hocc]
        rfl
    · intro j hne
      rw [occ_append, occ_single] at hne
      by_cases hij : i = j
      · refine ⟨_, List.mem_append_right _ (List.mem_singleton_self _), hij⟩
      · rw [if_neg hij, List.append_nil] at hne
        obtain ⟨m, hm, hmid⟩ := h2 j hne
        exact ⟨m, List.mem_append_left _ hm, hmid⟩
    · rw [List.map_append]
      have hni : i ∉ c.entries.map Message.id := by
        intro hmem
        obtain ⟨m, hm, hmid⟩ := List.mem_map.mp hmem
        exact hno m hm hmid
      simp [List.nodup_append, h3, hni]

lemma addAll_inv :
    ∀ (adds : List (String × (String × Nat))) (c : Catalog)
      (done : List (String × (String × Nat))),
      (∀ m ∈ c.entries, m.context = none ∧ m.locations = occ m.id done) →
      (∀ j, occ j done ≠ [] → ∃ m ∈ c.entries, m.id = j) →
      (c.entries.map Message.id).Nodup →
      (∀ m ∈ (addAll c adds).entries,
          m.context = none ∧ m.locations = occ m.id (done ++ adds)) ∧
      (∀ j, occ j (done ++ adds) ≠ [] → ∃ m ∈ (addAll c adds).entries, m.id = j) ∧
      ((addAll c adds).entries.map Message.id).Nodup := by
  intro adds
  induction adds with
  | nil =>
    intro c done h1 h2 h3
    rw [List.append_nil]
    exact ⟨h1, h2, h3⟩
  | cons a rest ih =>
    intro c done h1 h2 h3
    obtain ⟨g1, g2, g3⟩ := addMessage_inv c done a.1 a.2 h1 h2 h3
    have heq : done ++ a :: rest = (done ++ [(a.1, a.2)]) ++ rest := by
      rw [List.append_cons]
    rw [heq]
    exact ih (addMessage c a.1 a.2) (done ++ [(a.1, a.2)]) g1 g2 g3

lemma addBlocks_eq (path : String) :
    ∀ (blocks : List Block) (c : Catalog),
      addBlocks path c blocks = addAll c (blocks.map fun b => (b.text, (path, b.start))) := by
  intro blocks
  induction blocks with
  | nil => intro c; rfl
  | cons b rest ih =>
    intro c
    unfold addBlocks addAll
    rw [List.map_cons]
    exact ih (addMessage c b.text (path, b.start))

lemma addAll_append :
    ∀ (a : List (String × (String × Nat))) (c : Catalog)
      (b : List (String × (String × Nat))),
      addAll c (a ++ b) = addAll (addAll c a) b := by
  intro a
  induction a with
  | nil => intro c b; rfl
  | cons x rest ih =>
    intro c b
    obtain ⟨i, lc⟩ := x
    rw [List.cons_append]
    have hstep : addAll c ((i, lc) :: rest) = addAll (addMessage c i lc) rest := rfl
    rw [hstep]
    exact ih (addMessage c i lc) b

lemma extractFiles_eq :
    ∀ (tree : DocTree) (c : Catalog), extractFiles c tree = addAll c (treeAdds tree) := by
  intro tree
  induction tree with
  | nil => intro c; rfl
  | cons pr rest ih =>
    intro c
    unfold extractFiles treeAdds
    rw [List.map_cons, List.flatten_cons, addAll_append, ← addBlocks_eq]
    exact ih _

/-! ### Claim theorems -/

/-- Claim C1: the synchronizer preserves translations — for every
template and existing locale catalog, if the entry for key `k` is
translated and non-fuzzy in the existing catalog and `k`'s identity
text also occurs unchanged in the template, then the synchronized
catalog's entry for `k` keeps the same translated value with
`fuzzy = false`, while its locations and auto comments are replaced
by the template's current ones. -/
theorem sync_preserves_translation (template existing : Catalog) (i : String)
    (ctx : Option String) (t e : Message)
    (ht : findMsg template.entries i ctx = some t)
    (he : findMsg existing.entries i ctx = some e)
    (hf : e.fuzzy = false)
    (htr : hasTranslation e.string = true) :
    findMsg (Catalog.update existing template).entries i ctx =
      some { t with string := e.string, fuzzy := false } := by
  obtain ⟨-, hti, htc⟩ := findMsg_eq ht
  unfold Catalog.update
  rw [findMsg_map (mergeEntry_key existing), ht, Option.map_some',
    mergeEntry_of_found (by rw [hti, htc]; exact he) hf htr]

/-- Witness for C1 at a concrete template and locale catalog. -/
theorem sync_preserves_translation_w :
    findMsg (Catalog.update Ew Tw).entries ("hello") none =
      some ⟨("hello"), none, PyStr.str ("bonjour"), false, [(("g.md"), 1)], []⟩ :=
  sync_preserves_translation Tw Ew ("hello") none
    ⟨("hello"), none, PyStr.str (""), false, [(("g.md"), 1)], []⟩
    ⟨("hello"), none, PyStr.str ("bonjour"), false, [(("old.md"), 5)], [("note")]⟩
    (by decide) (by decide) rfl rfl

/-- Claim C7: the synchronizer merges by exact identity only — a
template identity absent from the existing catalog produces a new
entry with empty translation, `fuzzy = false` and the template's
locations; no fuzzy matching against near-identical existing strings
occurs (the translation is simply lost). -/
theorem sync_new_entry (template existing : Catalog) (i : String)
    (ctx : Option String) (t : Message)
    (ht : findMsg template.entries i ctx = some t)
    (he : findMsg existing.entries i ctx = none) :
    findMsg (Catalog.update existing template).entries i ctx =
      some { t with string := PyStr.str (""), fuzzy := false } := by
  obtain ⟨-, hti, htc⟩ := findMsg_eq ht
  unfold Catalog.update
  rw [findMsg_map (mergeEntry_key existing), ht, Option.map_some',
    mergeEntry_of_absent (by rw [hti, htc]; exact he)]

/-- Witness for C7 at a concrete template and an empty locale
catalog. -/
theorem sync_new_entry_w :
    findMsg (Catalog.update Ew0 Tw).entries ("hello") none =
      some ⟨("hello"), none, PyStr.str (""), false, [(("g.md"), 1)], []⟩ :=
  sync_new_entry Tw Ew0 ("hello") none
    ⟨("hello"), none, PyStr.str (""), false, [(("g.md"), 1)], []⟩
    (by decide) rfl

/-- Claim C2: the completion gate — `nb_translated` counts exactly the
locale entries that are non-fuzzy, differ from the template entry's
value and are non-empty after stripping (every form, for a plural
tuple); the fraction is that count over the template size; on the
ten-entry template `T10` with nine valid translations (`L9`) the
fraction is 9/10 and the default cutoff 0.90 is inclusive, so the
locale is included; in general a locale is excluded exactly when
`round(fraction, 2) < COMPLETION_CUTOFF`. -/
theorem completion_gate :
    (∀ template locale : Catalog,
        (∀ m ∈ locale.entries, (findMsg template.entries m.id m.context).isSome = true) →
        translatedCount template locale =
          some (locale.entries.countP (validTranslated template))) ∧
    T10.entries.length = 10 ∧
    translatedCount T10 L9 = some 9 ∧
    completionPct 9 10 = 9 / 10 ∧
    gateExcluded 9 10 = false ∧
    (∀ nb total : Nat, gateExcluded nb total = true ↔
        round2 (completionPct nb total) < COMPLETION_CUTOFF) := by
  refine ⟨?_, by decide, by decide, by norm_num [completionPct], ?_, ?_⟩
  · intro template locale h
    unfold translatedCount
    rw [countFold_eq template locale.entries 0 h]
    norm_num
  · have h1 : completionPct 9 10 = 9 / 10 := by norm_num [completionPct]
    unfold gateExcluded
    rw [h1]
    unfold round2 roundHalfEven COMPLETION_CUTOFF
    norm_num
  · intro nb total
    unfold gateExcluded
    exact ⟨of_decide_eq_true, decide_eq_true⟩

/-- Witness for C2's counting characterization at the concrete
ten-entry template and nine-translation locale. -/
theorem completion_gate_w :
    translatedCount T10 L9 = some (L9.entries.countP (validTranslated T10)) :=
  completion_gate.1 T10 L9 (by decide)

/-- Claim C10: the completion count of `generate` looks up every
locale-catalog key in the template with no guard — if some identity of
the locale catalog is absent from the template the count errors (the
Python `KeyError`) and no summary is produced for that locale, and
when every identity is present the count is defined. -/
theorem generate_lookup_unguarded :
    (∀ template locale : Catalog, ∀ m ∈ locale.entries,
        findMsg template.entries m.id m.context = none →
        translatedCount template locale = none) ∧
    (∀ template locale : Catalog,
        (∀ m ∈ locale.entries, (findMsg template.entries m.id m.context).isSome = true) →
        (translatedCount template locale).isSome = true) := by
  constructor
  · intro template locale m hm hn
    exact countFold_none template locale.entries 0 m hm hn
  · intro template locale h
    unfold translatedCount
    rw [countFold_eq template locale.entries 0 h]
    rfl

/-- Witness for C10: a locale catalog holding the unknown identity
`zz` aborts the count against `T10`. -/
theorem generate_lookup_unguarded_w :
    translatedCount T10 Lbad = none :=
  generate_lookup_unguarded.1 T10 Lbad (lEntry ("zz") ("t") 1) (by decide) (by decide)

/-- Counterexample for C3: on the input whose lines are
`a`, `b`, blank, `c`, the tokenizer does not produce a second block
with start line 3 — the line `c` is the fourth line, and the block
list is `[(1, a\nb), (4, c)]`. -/
theorem tokenizer_concrete_cex :
    extract_blocks [("a"), ("b"), (""), ("c")] ≠ [⟨1, ("a\nb")⟩, ⟨3, ("c")⟩] := by
  decide

/-- Claim C3 (amended): on input `a\nb\n\nc\n` the tokenizer yields
exactly the blocks (1, `a\nb`) and (4, `c`); in general every emitted
block's start is the 1-based number of the first line appended while
the accumulator was empty: that line exists, is non-blank, and is
either line 1 or preceded by a blank line. -/
theorem tokenizer_blocks :
    extract_blocks [("a"), ("b"), (""), ("c")] = [⟨1, ("a\nb")⟩, ⟨4, ("c")⟩] ∧
    ∀ (lines : List String) (b : Block), b ∈ extract_blocks lines → startOk lines b.start :=
  ⟨by decide, fun lines b hb => blocks_startOk lines b hb⟩

/-- Witness for C3's general start-line property at the second block
of the concrete input. -/
theorem tokenizer_blocks_w : startOk [("a"), ("b"), (""), ("c")] 4 :=
  tokenizer_blocks.2 [("a"), ("b"), (""), ("c")] ⟨4, ("c")⟩ (by decide)

/-- Claim C4: extraction deduplicates by message identity — for every
document tree the extracted catalog has pairwise-distinct identities,
each entry's locations are exactly the (file, line) occurrences of its
text over the whole tree in file-visitation order, and every occurring
text has an entry. -/
theorem extract_dedup (tree : DocTree) :
    ((extract tree).entries.map Message.id).Nodup ∧
    (∀ m ∈ (extract tree).entries, m.locations = occ m.id (treeAdds tree)) ∧
    (∀ i, occ i (treeAdds tree) ≠ [] → ∃ m ∈ (extract tree).entries, m.id = i) := by
  have h := addAll_inv (treeAdds tree) ⟨none, []⟩ []
    (fun m hm => absurd hm (List.not_mem_nil m))
    (fun j hne => absurd rfl hne)
    List.nodup_nil
  rw [List.nil_append] at h
  have hex : extract tree = addAll ⟨none, []⟩ (treeAdds tree) := by
    unfold extract
    exact extractFiles_eq tree _
  rw [hex]
  exact ⟨h.2.2, fun m hm => (h.1 m hm).2, h.2.1⟩

/-- Witness for C4 on two files sharing one block text: the single
entry carries both locations, in visitation order. -/
theorem extract_dedup_w :
    (⟨("dup"), none, PyStr.str (""), false,
        [(("f1.md"), 1), (("f2.md"), 1)], []⟩ : Message).locations
      = occ ("dup") (treeAdds dupTree) ∧
    (∃ m ∈ (extract dupTree).entries, m.id = ("dup")) :=
  ⟨(extract_dedup dupTree).2.1 _ (by decide),
   (extract_dedup dupTree).2.2 ("dup") (by decide)⟩

/-- Claim C5: regenerator round-trip — the template of the single file
with blocks (1, `a`) and (3, `b`), fully translated non-fuzzy with
identity-preserving translations (`rtLocale`), regenerates for that
file exactly the content `a\n\nb\n\n`: entries sorted by line
ascending, each text followed by the two newlines restoring the
blank-line delimiter. -/
theorem regen_roundtrip :
    extract_blocks [("a"), (""), ("b")] = [⟨1, ("a")⟩, ⟨3, ("b")⟩] ∧
      po2text rtLocale = some [(("f.md"), ("a\n\nb\n\n"))] :=
  ⟨by decide, by decide⟩

/-- Claim C6: regenerator fallback — on every completing run, for
every catalog entry and every one of its locations, the record placed
in that location's destination file carries the entry's translation
when it is non-fuzzy and non-empty after stripping, and the original
identity text otherwise; untranslated, fuzzy or whitespace-only
content is never dropped. -/
theorem po2text_fallback (c : Catalog) (fs : Files) (m : Message) (loc : String × Nat)
    (hp : po2textFiles c = some fs) (hm : m ∈ c.entries) (hloc : loc ∈ m.locations) :
    ∃ g, lookupGroup fs (pathName loc.1) = some g ∧ (loc.2, emitted m) ∈ g :=
  entFold_mem c.entries [] fs m loc hp hm hloc

/-- Witness for C6 on a catalog whose only entry is fuzzy: the
identity text is emitted. -/
theorem po2text_fallback_w :
    ∃ g, lookupGroup [(("a.md"), [(2, ("orig"))])] ("a.md") = some g ∧
      ((2 : Nat), ("orig")) ∈ g :=
  po2text_fallback Cfuzzy [(("a.md"), [(2, ("orig"))])]
    ⟨("orig"), none, PyStr.str ("tr"), true, [(("a.md"), 2)], []⟩
    (("a.md"), 2) (by decide) (by decide) (by decide)

/-- Counterexample for C8: a failing locale prevents the processing of
the locales after it — `Ew` alone is processed and written, but behind
a malformed locale it is not, so one locale's failure is not
isolated. -/
theorem update_run_cex :
    updateRun Tw [Except.ok Ew] = ([Catalog.update Ew Tw], none) ∧
      updateRun Tw [Except.error ("malformed"), Except.ok Ew] = ([], some ("malformed")) :=
  ⟨rfl, rfl⟩

/-- Claim C8 (amended): `update` (and `generate`, which shares the
unguarded per-locale loop) has no per-locale failure isolation — a
malformed catalog or I/O failure aborts the run at that locale: the
locales before it in iteration order are processed and written, the
ones after it are not, and the run ends with that first error rather
than an aggregated per-locale status. -/
theorem update_run_aborts (template : Catalog) (ls : List (Except String Catalog)) :
    updateRun template ls =
      ((okBefore ls).map fun c => Catalog.update c template, firstErr ls) := by
  induction ls with
  | nil => rfl
  | cons c rest ih =>
    cases c with
    | error e => rfl
    | ok cat =>
      unfold updateRun okBefore firstErr
      rw [List.map_cons, ih]

/-- Claim C9: regeneration groups records only by the final name
component of each location's path — on every completing run, two
locations with the same file name land in the same single destination
group (the `files` dict keys are pairwise distinct), so the source
directory structure is not reproduced. -/
theorem po2text_groups_by_name (c : Catalog) (fs : Files) (m1 m2 : Message)
    (loc1 loc2 : String × Nat)
    (hp : po2textFiles c = some fs)
    (hm1 : m1 ∈ c.entries) (hl1 : loc1 ∈ m1.locations)
    (hm2 : m2 ∈ c.entries) (hl2 : loc2 ∈ m2.locations)
    (hname : pathName loc1.1 = pathName loc2.1) :
    (∃ g, lookupGroup fs (pathName loc1.1) = some g ∧
       (loc1.2, emitted m1) ∈ g ∧ (loc2.2, emitted m2) ∈ g) ∧
    (fs.map Prod.fst).Nodup := by
  obtain ⟨g1, hg1, hx1⟩ := entFold_mem c.entries [] fs m1 loc1 hp hm1 hl1
  obtain ⟨g2, hg2, hx2⟩ := entFold_mem c.entries [] fs m2 loc2 hp hm2 hl2
  rw [← hname] at hg2
  have hgg : g1 = g2 := Option.some.inj (hg1.symm.trans hg2)
  subst hgg
  exact ⟨⟨g1, hg1, hx1, hx2⟩, entFold_keys_nodup c.entries [] fs hp (by simp)⟩

/-- Witness for C9 on a catalog whose two entries live under different
directories but the same file name. -/
theorem po2text_groups_by_name_w :
    (∃ g, lookupGroup [(("index.md"), [(1, ("tx")), (7, ("ty"))])] ("index.md") = some g ∧
       ((1 : Nat), ("tx")) ∈ g ∧ ((7 : Nat), ("ty")) ∈ g) ∧
    (([(("index.md"), [(1, ("tx")), (7, ("ty"))])] : Files).map Prod.fst).Nodup :=
  po2text_groups_by_name Cdirs [(("index.md"), [(1, ("tx")), (7, ("ty"))])]
    ⟨("x"), none, PyStr.str ("tx"), false, [(("d1/index.md"), 1)], []⟩
    ⟨("y"), none, PyStr.str ("ty"), false, [(("d2/index.md"), 7)], []⟩
    (("d1/index.md"), 1) (("d2/index.md"), 7)
    (by decide) (by decide) (by decide) (by decide) (by decide) (by decide)

end Docs
